import Mathlib

/-!
Verification of the audio-chunking and transcript-stitching core of
`src/app.py` (podcast transcriber).

Texts are modelled as `List Char`; Python machine floats in the chunker are
modelled as exact rational arithmetic (`int(...)` truncation toward zero is
`Int.tdiv`).  The shallow embedding keeps the source's names where possible:
`merge_overlapping_text`, `get_chunk_size_ms`, `chunk_audio`,
`process_large_audio`.
-/

set_option autoImplicit false

/-! ### Python string/list primitives used by `merge_overlapping_text` -/

/-- Helper for `pySplit`: walks the characters, `cur` holds the (reversed)
word being accumulated. Models Python `str.split()` (split on whitespace
runs, discarding empty words). -/
def pySplitAux : List Char → List Char → List (List Char)
  | [], cur => if cur = [] then [] else [cur.reverse]
  | c :: rest, cur =>
    if c.isWhitespace then
      if cur = [] then pySplitAux rest [] else cur.reverse :: pySplitAux rest []
    else pySplitAux rest (c :: cur)

/-- Python `text.split()`: whitespace-separated words of a text. -/
def pySplit (t : List Char) : List (List Char) := pySplitAux t []

/-- Python `" ".join(ws)`. -/
def spaceJoin : List (List Char) → List Char
  | [] => []
  | [w] => w
  | w :: rest => w ++ ' ' :: spaceJoin rest

/-- Python list slice `l[s:]` (negative index counts from the end, clamped). -/
def pyFrom {α : Type} (l : List α) (s : Int) : List α :=
  if s < 0 then l.drop ((l.length + s).toNat) else l.drop s.toNat

/-- Python list slice `l[:e]` (negative index counts from the end, clamped;
`take` past the end already clamps like Python). -/
def pyTo {α : Type} (l : List α) (e : Int) : List α :=
  if e < 0 then l.take ((l.length + e).toNat) else l.take e.toNat

/-- The `for i in range(min_overlap, max_overlap + 1)` loop body of
`merge_overlapping_text` (src/app.py lines 224-230): at index `i` compare
`" ".join(words1[-i:])` with `" ".join(words2[:i])`; stop at the first
match (Python `break`).  `n` is the number of remaining iterations, so the
call in `merge_overlapping_text` uses `n = max(0, max_overlap + 1 - min_overlap)`
exactly as Python `range` does. -/
def findLoop (w1 w2 : List (List Char)) : Int → Nat → Option (List Char)
  | _, 0 => none
  | i, n + 1 =>
    if spaceJoin (pyFrom w1 (-i)) = spaceJoin (pyTo w2 i)
    then some (spaceJoin (pyFrom w1 (-i)))
    else findLoop w1 w2 (i + 1) n

/-- Python `hay.find(pat)`: index of the first occurrence of `pat` in `hay`,
`none` for Python's `-1`. -/
def strFind : List Char → List Char → Option Nat
  | [], pat => if pat.isPrefixOf [] then some 0 else none
  | c :: t, pat =>
    if pat.isPrefixOf (c :: t) then some 0
    else Option.map (fun n => n + 1) (strFind t pat)

/-- Embedding of `merge_overlapping_text(text1, text2, min_overlap=10)`
(src/app.py lines 212-238).  `min_overlap` is an `Int` because the source
performs no validation on it.  Python's `best_overlap` starts as `""` and is
only consulted through its truthiness, so a loop that never matches and a
loop that matches the empty string both take the fallback branch, which the
`getD []` faithfully reproduces. -/
def merge_overlapping_text (text1 text2 : List Char) (min_overlap : Int) : List Char :=
  if text1 = [] ∨ text2 = [] then
    -- `return text1 or text2`
    if text1 = [] then text2 else text1
  else
    let words1 := pySplit text1
    let words2 := pySplit text2
    let maxov : Nat := min words1.length words2.length
    let best := (findLoop words1 words2 min_overlap (((maxov : Int) + 1 - min_overlap).toNat)).getD []
    if best = [] then text1 ++ ' ' :: text2
    else
      match strFind text2 best with
      | some idx => text1 ++ text2.drop (idx + best.length)
      | none => text1 ++ ' ' :: text2

/-! ### Specification-side notions for the merge algorithm -/

/-- Word-level overlap match at window length `k`: the last `k` words of `w1`
joined with single spaces equal (exact string match) the first `k` words of
`w2` joined with single spaces — the comparison the source's loop performs. -/
def matchW (w1 w2 : List (List Char)) (k : Nat) : Prop :=
  spaceJoin (pyFrom w1 (-(k : Int))) = spaceJoin (pyTo w2 (k : Int))

instance (w1 w2 : List (List Char)) (k : Nat) : Decidable (matchW w1 w2 k) := by
  unfold matchW; infer_instance

/-- The upper end of the overlap search range: `min(len(words1), len(words2))`. -/
def maxOverlap (a b : List Char) : Nat := min (pySplit a).length (pySplit b).length

/-- The joined first-`k`-words phrase of a text (the `prefix`/`best_overlap`
string the source searches for inside `text2`). -/
def phraseOf (b : List Char) (k : Nat) : List Char := spaceJoin (pyTo (pySplit b) (k : Int))

/-- The phrase `pat` occurs in `s` at position `idx`. -/
def occursAt (s pat : List Char) (idx : Nat) : Prop := pat.isPrefixOf (s.drop idx) = true

instance (s pat : List Char) (idx : Nat) : Decidable (occursAt s pat idx) := by
  unfold occursAt; infer_instance

/-! ### Audio chunker (`AudioChunker`, src/app.py lines 67-104)

An `AudioBuffer` is abstracted by its decoded size in bytes
(`len(audio_segment.raw_data)`) and its duration in milliseconds
(`len(audio_segment)`); a produced segment is abstracted by its clipped
millisecond interval `(start, end)` — the MP3 re-encode of that slice is the
external collaborator's concern. -/

/-- The exact-rational value of `int(max_size_bytes / (size_bytes / dur_ms))`:
Python `int()` truncates toward zero, which on integers is `Int.tdiv`. -/
def chunkSize (maxBytes : Int) (sizeBytes durMs : Nat) : Int :=
  Int.tdiv (maxBytes * durMs) sizeBytes

/-- Embedding of `AudioChunker.get_chunk_size_ms` (src/app.py lines 72-76).
`none` models the `ZeroDivisionError` Python raises when the buffer has zero
duration (`len(audio_segment) == 0`) or zero decoded size
(`bytes_per_ms == 0.0`). -/
def get_chunk_size_ms (maxBytes : Int) (sizeBytes durMs : Nat) : Option Int :=
  if durMs = 0 then none
  else if sizeBytes = 0 then none
  else some (chunkSize maxBytes sizeBytes durMs)

/-- Millisecond index clipping used by pydub slicing `audio[start:end]`
(Python sequence-slice semantics: a negative index counts from the end,
then both are clamped to `[0, dur]`). -/
def pyClip (dur v : Int) : Int :=
  if v < 0 then max 0 (dur + v) else min v dur

/-- The segment emitted for `audio[start:end]`: the clipped interval, empty
(`lo = hi`) when the clipped bounds cross. -/
def clipSeg (dur s e : Int) : Int × Int :=
  (pyClip dur s, max (pyClip dur s) (pyClip dur e))

/-- The `while start < len(audio)` loop of `chunk_audio` (src/app.py lines
90-102), with an explicit fuel: the source loop has no termination check and
genuinely diverges for some inputs, which `none` (fuel exhausted at every
fuel) makes observable. -/
def chunkLoopFuel (dur csize ov : Int) : Int → Nat → Option (List (Int × Int))
  | _, 0 => none
  | start, n + 1 =>
    if start < dur then
      match chunkLoopFuel dur csize ov (start + csize - ov) n with
      | none => none
      | some rest => some (clipSeg dur start (start + csize) :: rest)
    else some []

/-- Outcome of `chunk_audio`: a segment list, the `ZeroDivisionError` raised
inside `get_chunk_size_ms`, or non-termination within the given fuel. -/
inductive ChunkResult where
  | ok (segs : List (Int × Int))
  | zeroDivError
  | outOfFuel
deriving DecidableEq

/-- Embedding of `AudioChunker.chunk_audio` (src/app.py lines 78-104).
`maxBytes` is `self.max_size_bytes`, `ovMs` is `self.overlap_sec * 1000`,
`sizeBytes`/`durMs` describe the decoded source buffer. The source performs
no plan validation of any kind before the loop. -/
def chunk_audio (maxBytes ovMs : Int) (sizeBytes durMs : Nat) (fuel : Nat) : ChunkResult :=
  match get_chunk_size_ms maxBytes sizeBytes durMs with
  | none => .zeroDivError
  | some csize =>
    match chunkLoopFuel durMs csize ovMs 0 fuel with
    | none => .outOfFuel
    | some segs => .ok segs

/-- Adjacency invariant on a segment list: each segment after the first
starts exactly `step` after its predecessor's start and not after its
predecessor's end (no gap). -/
def adjOk (step : Int) : List (Int × Int) → Prop
  | [] => True
  | [_] => True
  | p :: q :: rest => (q.1 = p.1 + step ∧ q.1 ≤ p.2) ∧ adjOk step (q :: rest)

instance (step : Int) (l : List (Int × Int)) : Decidable (adjOk step l) := by
  induction l with
  | nil => simp [adjOk]; infer_instance
  | cons p rest ih =>
    cases rest with
    | nil => simp [adjOk]; infer_instance
    | cons q r => simp only [adjOk]; exact @instDecidableAnd _ _ _ ih

/-- The claim's reading of the overlap invariant: each segment after the
first begins exactly `ov` before its predecessor's (emitted) end. -/
def adjAtEndMinus (ov : Int) : List (Int × Int) → Prop
  | [] => True
  | [_] => True
  | p :: q :: rest => q.1 = p.2 - ov ∧ adjAtEndMinus ov (q :: rest)

instance (ov : Int) (l : List (Int × Int)) : Decidable (adjAtEndMinus ov l) := by
  induction l with
  | nil => simp [adjAtEndMinus]; infer_instance
  | cons p rest ih =>
    cases rest with
    | nil => simp [adjAtEndMinus]; infer_instance
    | cons q r => simp only [adjAtEndMinus]; exact @instDecidableAnd _ _ _ ih

/-- Every instant of the buffer `[0, dur)` lies inside some emitted segment. -/
def covers (dur : Int) (l : List (Int × Int)) : Prop :=
  ∀ t : Int, 0 ≤ t → t < dur → ∃ p ∈ l, p.1 ≤ t ∧ t < p.2

/-! ### Transcript stitching pipeline (`process_large_audio`, src/app.py lines 170-210)

A per-segment transcription outcome is `Option (List Char)`: `none` when
`transcribe_chunk` raised or returned `None`, `some t` for a returned text
(which the source still treats as failed when falsy, i.e. empty). -/

/-- The `for i, chunk in enumerate(chunks)` loop of `process_large_audio`
(src/app.py lines 183-198): successful texts are collected in ascending
index order, failed indices accumulate in `failed_chunks`. -/
def processChunks : Nat → List (Option (List Char)) → List (List Char) × List Nat
  | _, [] => ([], [])
  | i, r :: rest =>
    let p := processChunks (i + 1) rest
    match r with
    | some t => if t = [] then (p.1, i :: p.2) else (t :: p.1, p.2)
    | none => (p.1, i :: p.2)

/-- The final fold of `process_large_audio` (src/app.py lines 207-209, with
the evident intended indentation of line 209 — in the source that line is
not indented under its `for`, an `IndentationError`): start from the first
successful text and merge the rest in with the default `min_overlap = 10`. -/
def stitch : List (List Char) → List Char
  | [] => []
  | t :: rest => rest.foldl (fun acc x => merge_overlapping_text acc x 10) t

/-- Embedding of `process_large_audio` restricted to its algorithmic core:
the per-segment outcomes are given as a list (chunking, UI progress and the
rate-limiting sleep are external), the result is the stitched text plus the
failed-index list. -/
def process_large_audio (rs : List (Option (List Char))) : List Char × List Nat :=
  let p := processChunks 0 rs
  (stitch p.1, p.2)

/-- Specification-side success test: a segment outcome counts as successful
exactly when a non-empty text came back. -/
def isSuccess (r : Option (List Char)) : Bool :=
  match r with
  | some t => decide (t ≠ [])
  | none => false

/-- Specification-side list of successful texts, in ascending index order. -/
def successTexts (rs : List (Option (List Char))) : List (List Char) :=
  rs.filterMap fun r =>
    match r with
    | some t => if t = [] then none else some t
    | none => none

/-! ### Lemmas about the merge algorithm -/

/-- Every word produced by `pySplitAux` is non-empty: a word is only emitted
from a non-empty accumulator. -/
lemma pySplitAux_words_ne_nil :
    ∀ (s cur : List Char), ∀ w ∈ pySplitAux s cur, w ≠ [] := by
  intro s
  induction s with
  | nil =>
    intro cur w hw
    by_cases hcur : cur = []
    · simp [pySplitAux, hcur] at hw
    · simp only [pySplitAux, if_neg hcur, List.mem_singleton] at hw
      subst hw
      simpa using hcur
  | cons c rest ih =>
    intro cur w hw
    simp only [pySplitAux] at hw
    by_cases hws : c.isWhitespace
    · rw [if_pos hws] at hw
      by_cases hcur : cur = []
      · rw [if_pos hcur] at hw
        exact ih [] w hw
      · rw [if_neg hcur] at hw
        rcases List.mem_cons.mp hw with h | h
        · subst h; simpa using hcur
        · exact ih [] w h
    · rw [if_neg hws] at hw
      exact ih (c :: cur) w hw

/-- Every word of `pySplit t` is non-empty. -/
lemma pySplit_words_ne_nil (t : List Char) : ∀ w ∈ pySplit t, w ≠ [] :=
  fun w hw => pySplitAux_words_ne_nil t [] w hw

/-- Joining a non-empty list of non-empty words is non-empty. -/
lemma spaceJoin_ne_nil :
    ∀ (ws : List (List Char)), ws ≠ [] → (∀ w ∈ ws, w ≠ []) → spaceJoin ws ≠ [] := by
  intro ws hne hw
  match ws with
  | [w] => simpa [spaceJoin] using hw w (by simp)
  | w :: x :: rest => simp [spaceJoin]

/-- The ascending search loop returns the suffix string of the least
matching window length. -/
lemma findLoop_eq_some_of_least (w1 w2 : List (List Char)) :
    ∀ (n i k : Nat), i ≤ k → k < i + n → matchW w1 w2 k →
      (∀ j, j < k → i ≤ j → ¬ matchW w1 w2 j) →
      findLoop w1 w2 (i : Int) n = some (spaceJoin (pyFrom w1 (-(k : Int)))) := by
  intro n
  induction n with
  | zero => intro i k hik hkn _ _; omega
  | succ n ih =>
    intro i k hik hkn hk hleast
    by_cases hi : matchW w1 w2 i
    · have hi' : spaceJoin (pyFrom w1 (-(i : Int))) = spaceJoin (pyTo w2 (i : Int)) := hi
      have hik' : i = k := by
        by_contra hne
        exact hleast i (by omega) le_rfl hi
      subst hik'
      simp only [findLoop, if_pos hi']
    · have hi' : ¬ spaceJoin (pyFrom w1 (-(i : Int))) = spaceJoin (pyTo w2 (i : Int)) := hi
      have hik' : i < k := by
        rcases Nat.lt_or_ge i k with h | h
        · exact h
        · exact absurd (le_antisymm hik h) (fun he => hi (he ▸ hk))
      have hrec := ih (i + 1) k (by omega) (by omega) hk
        (fun j hj hij => hleast j hj (by omega))
      simp only [findLoop, if_neg hi']
      rw [show ((i : Int) + 1) = ((i + 1 : Nat) : Int) by push_cast; ring]
      exact hrec

/-- The ascending search loop returns nothing when no window length in its
range matches. -/
lemma findLoop_eq_none (w1 w2 : List (List Char)) :
    ∀ (n i : Nat), (∀ j, i ≤ j → j < i + n → ¬ matchW w1 w2 j) →
      findLoop w1 w2 (i : Int) n = none := by
  intro n
  induction n with
  | zero => intro i _; rfl
  | succ n ih =>
    intro i hnone
    have hi : ¬ matchW w1 w2 i := hnone i le_rfl (by omega)
    have hi' : ¬ spaceJoin (pyFrom w1 (-(i : Int))) = spaceJoin (pyTo w2 (i : Int)) := hi
    simp only [findLoop, if_neg hi']
    rw [show ((i : Int) + 1) = ((i + 1 : Nat) : Int) by push_cast; ring]
    exact ih (i + 1) (fun j h1 h2 => hnone j (by omega) (by omega))

/-- Python's `find` returns the least index at which the pattern occurs. -/
lemma strFind_eq_some_of_least (pat : List Char) :
    ∀ (idx : Nat) (hay : List Char), occursAt hay pat idx →
      (∀ j, j < idx → ¬ occursAt hay pat j) →
      strFind hay pat = some idx := by
  intro idx
  induction idx with
  | zero =>
    intro hay hocc _
    have h0 : pat.isPrefixOf hay = true := by simpa [occursAt] using hocc
    match hay with
    | [] => simp [strFind, h0]
    | c :: t => simp [strFind, h0]
  | succ n ih =>
    intro hay hocc hleast
    have h0 : ¬ (pat.isPrefixOf hay = true) := by
      have := hleast 0 (by omega)
      simpa [occursAt] using this
    match hay with
    | [] =>
      exfalso
      have : pat.isPrefixOf (([] : List Char).drop (n + 1)) = true := hocc
      simp only [List.drop_nil] at this
      exact h0 this
    | c :: t =>
      have hocc' : occursAt t pat n := by
        simpa [occursAt] using hocc
      have hleast' : ∀ j, j < n → ¬ occursAt t pat j := by
        intro j hj hj'
        exact hleast (j + 1) (by omega) (by simpa [occursAt] using hj')
      simp only [strFind, if_neg h0, ih t hocc' hleast', Option.map_some']

/-- Unfolding of `merge_overlapping_text` on the successful-overlap path:
with a least matching window `k` whose phrase first occurs in `text2` at
`idx`, the result is `text1` followed by the remainder of `text2` after that
occurrence. -/
lemma merge_eq_of_least_match (a b : List Char) (m k idx : Nat)
    (ha : a ≠ []) (hb : b ≠ []) (hm : 1 ≤ m) (hmk : m ≤ k)
    (hkM : k ≤ maxOverlap a b)
    (hk : matchW (pySplit a) (pySplit b) k)
    (hleast : ∀ j, j < k → m ≤ j → ¬ matchW (pySplit a) (pySplit b) j)
    (hocc : occursAt b (phraseOf b k) idx)
    (hoccLeast : ∀ j, j < idx → ¬ occursAt b (phraseOf b k) j) :
    merge_overlapping_text a b (m : Int) = a ++ b.drop (idx + (phraseOf b k).length) := by
  have hmM : m ≤ maxOverlap a b := le_trans hmk hkM
  have hcount : (((min (pySplit a).length (pySplit b).length : Nat) : Int) + 1 - (m : Int)).toNat
      = maxOverlap a b + 1 - m := by
    have : maxOverlap a b = min (pySplit a).length (pySplit b).length := rfl
    omega
  have hfind := findLoop_eq_some_of_least (pySplit a) (pySplit b) (maxOverlap a b + 1 - m) m k
    hmk (by omega) hk hleast
  have hphrase : spaceJoin (pyFrom (pySplit a) (-(k : Int))) = phraseOf b k := hk
  have hne : phraseOf b k ≠ [] := by
    have hk1 : 1 ≤ k := le_trans hm hmk
    have hkb : k ≤ (pySplit b).length := le_trans hkM (min_le_right _ _)
    have htake : pyTo (pySplit b) (k : Int) ≠ [] := by
      unfold pyTo
      rw [if_neg (by omega)]
      simp only [Int.toNat_natCast]
      intro hcon
      rw [List.take_eq_nil_iff] at hcon
      rcases hcon with h | h
      · omega
      · rw [h] at hkb; simp at hkb; omega
    refine spaceJoin_ne_nil _ htake ?_
    intro w hw
    refine pySplit_words_ne_nil b w ?_
    have hsub : pyTo (pySplit b) (k : Int) ⊆ pySplit b := by
      unfold pyTo
      split
      · exact List.take_subset _ _
      · exact List.take_subset _ _
    exact hsub hw
  have hfindStr := strFind_eq_some_of_least (phraseOf b k) idx b hocc hoccLeast
  simp only [merge_overlapping_text]
  rw [if_neg (by simp [ha, hb])]
  rw [hcount, hfind]
  simp only [Option.getD_some, hphrase]
  rw [if_neg hne, hfindStr]

/-! ### Lemmas about the chunker -/

/-- When the overlap is at least the chunk size the `while` loop of
`chunk_audio` never advances past the buffer end: no amount of fuel makes it
terminate (the source loop runs forever). -/
lemma chunkLoopFuel_none_of_nonadvancing (dur csize ov : Int) (h : csize ≤ ov) :
    ∀ (fuel : Nat) (start : Int), start < dur → chunkLoopFuel dur csize ov start fuel = none := by
  intro fuel
  induction fuel with
  | zero => intro start _; rfl
  | succ n ih =>
    intro start hsd
    have hrec := ih (start + csize - ov) (by omega)
    simp only [chunkLoopFuel, if_pos hsd, hrec]

/-- When the overlap is strictly smaller than the chunk size the loop
terminates given enough fuel. -/
lemma chunkLoopFuel_terminates (dur csize ov : Int) (hstep : ov < csize) :
    ∀ (fuel : Nat) (start : Int), (dur - start).toNat < fuel →
      ∃ l, chunkLoopFuel dur csize ov start fuel = some l := by
  intro fuel
  induction fuel with
  | zero => intro start h; omega
  | succ n ih =>
    intro start h
    by_cases hsd : start < dur
    · obtain ⟨l, hl⟩ := ih (start + csize - ov) (by omega)
      exact ⟨clipSeg dur start (start + csize) :: l,
        by simp only [chunkLoopFuel, if_pos hsd, hl]⟩
    · exact ⟨[], by simp only [chunkLoopFuel, if_neg hsd]⟩

/-- The segment emitted at a loop entry with `0 ≤ start < dur` and
`0 ≤ csize` is the interval from `start` to `start + csize` clipped at the
buffer end. -/
lemma clipSeg_eq (dur start csize : Int) (h0 : 0 ≤ start) (hsd : start < dur)
    (hcs : 0 ≤ csize) :
    clipSeg dur start (start + csize) = (start, min (start + csize) dur) := by
  unfold clipSeg pyClip
  rw [if_neg (by omega), if_neg (by omega)]
  rw [min_eq_left (by omega : start ≤ dur)]
  rw [max_eq_right (le_min (by omega) (by omega))]

/-- Structural invariants of every terminating run of the `chunk_audio`
loop under a valid plan (`0 ≤ ov < csize`): the head segment starts at
`start`, consecutive segments advance by `csize - ov` without gaps, each
segment ends at `min (start + csize) dur`, the final segment ends exactly at
`dur`, and the emitted segments cover `[start, dur)`. -/
lemma chunkLoopFuel_sound (dur csize ov : Int) (hov : 0 ≤ ov) (hstep : ov < csize) :
    ∀ (fuel : Nat) (start : Int) (l : List (Int × Int)),
      0 ≤ start →
      chunkLoopFuel dur csize ov start fuel = some l →
      (if start < dur then l.head?.map Prod.fst = some start ∧ l ≠ [] else l = [])
      ∧ adjOk (csize - ov) l
      ∧ (∀ p ∈ l, p.2 = min (p.1 + csize) dur)
      ∧ (l ≠ [] → l.getLast?.map Prod.snd = some dur)
      ∧ (∀ t : Int, start ≤ t → t < dur → ∃ p ∈ l, p.1 ≤ t ∧ t < p.2) := by
  intro fuel
  induction fuel with
  | zero =>
    intro start l _ hl
    simp [chunkLoopFuel] at hl
  | succ n ih =>
    intro start l h0 hl
    simp only [chunkLoopFuel] at hl
    by_cases hsd : start < dur
    · rw [if_pos hsd] at hl
      cases hrec : chunkLoopFuel dur csize ov (start + csize - ov) n with
      | none => rw [hrec] at hl; exact absurd hl (by simp)
      | some rest =>
        rw [hrec] at hl
        simp only [Option.some.injEq] at hl
        subst hl
        have hseg := clipSeg_eq dur start csize h0 hsd (by omega)
        rw [hseg]
        obtain ⟨ihHead, ihAdj, ihEnds, ihLast, ihCov⟩ :=
          ih (start + csize - ov) rest (by omega) hrec
        refine ⟨?_, ?_, ?_, ?_, ?_⟩
        · rw [if_pos hsd]
          exact ⟨rfl, by simp⟩
        · cases rest with
          | nil => trivial
          | cons q r =>
            have hlt : start + csize - ov < dur := by
              by_contra hge
              rw [if_neg hge] at ihHead
              exact absurd ihHead (by simp)
            rw [if_pos hlt] at ihHead
            have hq : q.1 = start + csize - ov := by
              have := ihHead.1
              simp only [List.head?_cons, Option.map_some'] at this
              exact Option.some.inj this
            exact ⟨⟨by omega, le_min (by omega) (by omega)⟩, ihAdj⟩
        · intro p hp
          rcases List.mem_cons.mp hp with h | h
          · subst h; rfl
          · exact ihEnds p h
        · intro _
          cases rest with
          | nil =>
            have hge : ¬ (start + csize - ov < dur) := by
              intro hlt
              rw [if_pos hlt] at ihHead
              exact absurd rfl ihHead.2
            simp only [List.getLast?_singleton, Option.map_some']
            rw [min_eq_right (by omega)]
          | cons q r =>
            rw [List.getLast?_cons_cons]
            exact ihLast (by simp)
        · intro t hst htd
          by_cases hte : t < min (start + csize) dur
          · exact ⟨(start, min (start + csize) dur), by simp, hst, hte⟩
          · have hcs : start + csize ≤ t := by
              rcases le_total (start + csize) dur with h | h
              · rw [min_eq_left h] at hte; omega
              · rw [min_eq_right h] at hte; omega
            obtain ⟨p, hp, hp1, hp2⟩ := ihCov t (by omega) htd
            exact ⟨p, by simp [hp], hp1, hp2⟩
    · rw [if_neg hsd] at hl
      simp only [Option.some.injEq] at hl
      subst hl
      refine ⟨by rw [if_neg hsd], trivial, by simp, by simp, ?_⟩
      intro t hst htd
      omega

/-! ### Lemmas about the pipeline driver -/

/-- The collection loop of `process_large_audio` produces exactly the
successful texts in ascending index order and the failed indices in
ascending order. -/
lemma processChunks_eq (rs : List (Option (List Char))) :
    ∀ i, processChunks i rs
      = (successTexts rs, ((List.enumFrom i rs).filter (fun p => !isSuccess p.2)).map Prod.fst) := by
  induction rs with
  | nil => intro i; rfl
  | cons r rest ih =>
    intro i
    simp only [processChunks, ih (i + 1)]
    cases r with
    | none => simp [successTexts, isSuccess, List.enumFrom, List.filterMap_cons]
    | some t =>
      by_cases ht : t = []
      · subst ht
        simp [successTexts, isSuccess, List.enumFrom, List.filterMap_cons]
      · simp [successTexts, isSuccess, List.enumFrom, List.filterMap_cons, ht]

/-! ### Claim theorems -/

/-- C1: for non-empty texts and `min_overlap_words ≥ 1`, `merge` accepts the
smallest window length `k` in `[min_overlap_words, min(len W1, len W2)]`
whose last-`k`-words string of `text_a` equals the first-`k`-words string of
`text_b`, and returns `text_a` followed by the remainder of `text_b` after
the first occurrence of the matched phrase; in particular the spec's
`"the quick brown fox"` / `"brown fox jumps over"` example merges to
`"the quick brown fox jumps over"`. -/
theorem C1_merge_smallest_overlap :
    (∀ (a b : List Char) (m k idx : Nat),
      a ≠ [] → b ≠ [] → 1 ≤ m → m ≤ k → k ≤ maxOverlap a b →
      matchW (pySplit a) (pySplit b) k →
      (∀ j, j < k → m ≤ j → ¬ matchW (pySplit a) (pySplit b) j) →
      occursAt b (phraseOf b k) idx →
      (∀ j, j < idx → ¬ occursAt b (phraseOf b k) j) →
      merge_overlapping_text a b (m : Int) = a ++ b.drop (idx + (phraseOf b k).length))
    ∧ merge_overlapping_text "the quick brown fox".toList "brown fox jumps over".toList 2
        = "the quick brown fox jumps over".toList :=
  ⟨fun a b m k idx ha hb hm hmk hkM hk hleast hocc hoccL =>
    merge_eq_of_least_match a b m k idx ha hb hm hmk hkM hk hleast hocc hoccL,
   by decide⟩

/-- Witness for C1 at the spec's example: window `k = 2` is the least match
and the phrase `"brown fox"` first occurs in `text_b` at index `0`. -/
theorem C1_merge_smallest_overlap_witness :
    matchW (pySplit "the quick brown fox".toList) (pySplit "brown fox jumps over".toList) 2
    ∧ merge_overlapping_text "the quick brown fox".toList "brown fox jumps over".toList 2
        = "the quick brown fox".toList
          ++ "brown fox jumps over".toList.drop
              (0 + (phraseOf "brown fox jumps over".toList 2).length) :=
  ⟨by decide,
   C1_merge_smallest_overlap.1 "the quick brown fox".toList "brown fox jumps over".toList 2 2 0
     (by decide) (by decide) (by decide) (by decide) (by decide) (by decide)
     (by decide) (by decide) (by decide)⟩

/-- C6: when no window length in the search range matches, `merge` falls
back to concatenation with a single separating space; in particular the
spec's `"hello world"` / `"goodbye moon"` example. -/
theorem C6_fallback_concatenation :
    (∀ (a b : List Char) (m : Nat), a ≠ [] → b ≠ [] → 1 ≤ m →
      (∀ k, k ≤ maxOverlap a b → m ≤ k → ¬ matchW (pySplit a) (pySplit b) k) →
      merge_overlapping_text a b (m : Int) = a ++ ' ' :: b)
    ∧ merge_overlapping_text "hello world".toList "goodbye moon".toList 1
        = "hello world goodbye moon".toList := by
  constructor
  · intro a b m ha hb hm hnone
    have hcount : (((min (pySplit a).length (pySplit b).length : Nat) : Int) + 1 - (m : Int)).toNat
        = maxOverlap a b + 1 - m := by
      have : maxOverlap a b = min (pySplit a).length (pySplit b).length := rfl
      omega
    simp only [merge_overlapping_text]
    rw [if_neg (by simp [ha, hb])]
    rw [hcount]
    rw [findLoop_eq_none (pySplit a) (pySplit b) (maxOverlap a b + 1 - m) m
      (fun j h1 h2 => hnone j (by omega) h1)]
    simp
  · decide

/-- Witness for C6 at the spec's example: no window length matches, so the
result is the plain space-separated concatenation. -/
theorem C6_fallback_concatenation_witness :
    (∀ k, k ≤ maxOverlap "hello world".toList "goodbye moon".toList → 1 ≤ k →
      ¬ matchW (pySplit "hello world".toList) (pySplit "goodbye moon".toList) k)
    ∧ merge_overlapping_text "hello world".toList "goodbye moon".toList 1
        = "hello world".toList ++ ' ' :: "goodbye moon".toList :=
  ⟨by decide,
   C6_fallback_concatenation.1 "hello world".toList "goodbye moon".toList 1
     (by decide) (by decide) (by decide) (by decide)⟩

/-- C7: the empty string is a left and right identity of `merge`, for every
text and every `min_overlap` value. -/
theorem C7_empty_identity :
    ∀ (t : List Char) (m : Int),
      merge_overlapping_text [] t m = t ∧ merge_overlapping_text t [] m = t := by
  intro t m
  constructor
  · simp [merge_overlapping_text]
  · by_cases ht : t = []
    · subst ht; simp [merge_overlapping_text]
    · simp [merge_overlapping_text, ht]

/-- C8 counterexample: `merge` performs no validation of `min_overlap`; a
call with `min_overlap = 0` or `-1` is not rejected, it returns the normal
fallback concatenation (the source has no raise statement and no
`InvalidArgumentError` exists anywhere in the repository). -/
theorem C8_counterexample :
    merge_overlapping_text "a".toList "b".toList 0 = "a b".toList
    ∧ merge_overlapping_text "a".toList "b".toList (-1) = "a b".toList :=
  ⟨by decide, by decide⟩

/-- C8 (amended): `min_overlap ≤ 0` is silently accepted and the search loop
simply starts there; with `min_overlap = 0` the extra iteration compares all
of `text_a`'s words against the empty string and cannot match when `text_a`
has a word, so the call behaves exactly like `min_overlap = 1`. -/
theorem C8_no_validation (a b : List Char) (h : pySplit a ≠ []) :
    merge_overlapping_text a b 0 = merge_overlapping_text a b 1 := by
  have ha : a ≠ [] := by
    intro he
    subst he
    exact h rfl
  by_cases hb : b = []
  · subst hb; simp [merge_overlapping_text, ha]
  · have hfrom : pyFrom (pySplit a) (-0) = pySplit a := by
      norm_num [pyFrom]
    have hto : pyTo (pySplit b) 0 = [] := by
      norm_num [pyTo]
    have hne : ¬ spaceJoin (pyFrom (pySplit a) (-0)) = spaceJoin (pyTo (pySplit b) 0) := by
      rw [hfrom, hto]
      show spaceJoin (pySplit a) ≠ spaceJoin []
      have hj : spaceJoin ([] : List (List Char)) = [] := rfl
      rw [hj]
      exact spaceJoin_ne_nil _ h (pySplit_words_ne_nil a)
    have hfl : findLoop (pySplit a) (pySplit b) 0
          ((((min (pySplit a).length (pySplit b).length : Nat) : Int) + 1 - 0).toNat)
        = findLoop (pySplit a) (pySplit b) 1
          ((((min (pySplit a).length (pySplit b).length : Nat) : Int) + 1 - 1).toNat) := by
      have hM1 : (((min (pySplit a).length (pySplit b).length : Nat) : Int) + 1 - 0).toNat
          = min (pySplit a).length (pySplit b).length + 1 := by omega
      have hM2 : (((min (pySplit a).length (pySplit b).length : Nat) : Int) + 1 - 1).toNat
          = min (pySplit a).length (pySplit b).length := by omega
      rw [hM1, hM2]
      conv_lhs => rw [findLoop]
      rw [if_neg hne]
      norm_num
    simp only [merge_overlapping_text]
    rw [hfl]

/-- Witness for C8's amended statement at a one-word text. -/
theorem C8_no_validation_witness :
    pySplit "x".toList ≠ []
    ∧ merge_overlapping_text "x".toList "y".toList 0
        = merge_overlapping_text "x".toList "y".toList 1 :=
  ⟨by decide, C8_no_validation "x".toList "y".toList (by decide)⟩

/-- C9: `merge` is not commutative — two non-empty distinct texts with a
genuine overlap merge differently depending on argument order. -/
theorem C9_not_commutative :
    ∃ (a b : List Char) (m : Int) (k : Nat),
      a ≠ [] ∧ b ≠ [] ∧ a ≠ b
      ∧ 1 ≤ k ∧ k ≤ maxOverlap a b ∧ matchW (pySplit a) (pySplit b) k
      ∧ merge_overlapping_text a b m ≠ merge_overlapping_text b a m := by
  refine ⟨"the quick brown fox".toList, "brown fox jumps over".toList, 2, 2,
    ?_, ?_, ?_, ?_, ?_, ?_, ?_⟩ <;> decide

/-- C10: for non-empty `text_a` the result of `merge` always extends
`text_a` — every branch of the source appends to `text_1`, never alters it. -/
theorem C10_starts_with_text_a (a b : List Char) (m : Int) (ha : a ≠ []) :
    ∃ s, merge_overlapping_text a b m = a ++ s := by
  by_cases hb : b = []
  · refine ⟨[], ?_⟩
    subst hb
    simp [merge_overlapping_text, ha]
  · simp only [merge_overlapping_text]
    rw [if_neg (by simp [ha, hb])]
    split
    · exact ⟨' ' :: b, rfl⟩
    · split
      · exact ⟨_, rfl⟩
      · exact ⟨' ' :: b, rfl⟩

/-- Witness for C10 at a concrete input. -/
theorem C10_starts_with_text_a_witness :
    "x".toList ≠ []
    ∧ ∃ s, merge_overlapping_text "x".toList "y z".toList 3 = "x".toList ++ s :=
  ⟨by decide, C10_starts_with_text_a "x".toList "y z".toList 3 (by decide)⟩

/-- C3 (code bug): `chunk_audio` performs none of the specified plan
validation and no `InvalidPlanError` exists in the source.  With the default
5 s overlap and a derived segment duration of 1000 ms the loop never
advances past the buffer end — it diverges for every fuel; an empty buffer
raises `ZeroDivisionError` inside `get_chunk_size_ms` instead of
`InvalidPlanError`; a non-positive byte budget yields a non-positive
segment duration and the loop again diverges for every fuel. -/
theorem C3_no_plan_validation :
    (∀ fuel : Nat, chunk_audio 1000 5000 1000 1000 fuel = ChunkResult.outOfFuel)
    ∧ (∀ fuel : Nat, chunk_audio 1000 5000 1000 0 fuel = ChunkResult.zeroDivError)
    ∧ (∀ fuel : Nat, chunk_audio (-5) 0 10 100 fuel = ChunkResult.outOfFuel) := by
  refine ⟨?_, fun fuel => rfl, ?_⟩
  · intro fuel
    have h := chunkLoopFuel_none_of_nonadvancing 1000 (chunkSize 1000 1000 1000) 5000
      (by decide) fuel 0 (by decide)
    show (match chunkLoopFuel 1000 (chunkSize 1000 1000 1000) 5000 0 fuel with
          | none => ChunkResult.outOfFuel
          | some segs => ChunkResult.ok segs) = ChunkResult.outOfFuel
    rw [h]
  · intro fuel
    have h := chunkLoopFuel_none_of_nonadvancing 100 (chunkSize (-5) 10 100) 0
      (by decide) fuel 0 (by decide)
    show (match chunkLoopFuel 100 (chunkSize (-5) 10 100) 0 0 fuel with
          | none => ChunkResult.outOfFuel
          | some segs => ChunkResult.ok segs) = ChunkResult.outOfFuel
    rw [h]

/-- C4 counterexample: a 10000 ms buffer whose decoded size (1000 bytes)
is exactly the byte budget is split into two segments when the overlap is
positive (here the source's default 5 s), not one. -/
theorem C4_counterexample :
    chunk_audio 1000 5000 1000 10000 10 = ChunkResult.ok [(0, 10000), (5000, 10000)]
    ∧ [((0 : Int), (10000 : Int)), (5000, 10000)].length ≠ 1 :=
  ⟨by decide, by decide⟩

/-- C4 (amended): a buffer within the byte budget yields exactly one segment
equal to the whole buffer provided the derived segment duration also covers
the overlap (`dur + ov ≤ chunk_size_ms`, in particular whenever the overlap
is zero); with a positive overlap and `chunk_size_ms < dur + ov` the source
emits extra tail segments. -/
theorem C4_single_segment (maxBytes ov : Int) (size dur fuel : Nat)
    (hd : 0 < dur) (hs : 0 < size) (hov : 0 ≤ ov)
    (_hin : (size : Int) ≤ maxBytes)
    (hcover : (dur : Int) + ov ≤ chunkSize maxBytes size dur)
    (hfuel : 2 ≤ fuel) :
    chunk_audio maxBytes ov size dur fuel = ChunkResult.ok [(0, dur)] := by
  obtain ⟨n, rfl⟩ : ∃ n, fuel = n + 2 := ⟨fuel - 2, by omega⟩
  have h0d : (0 : Int) < (dur : Int) := by exact_mod_cast hd
  have h1 : chunkLoopFuel (dur : Int) (chunkSize maxBytes size dur) ov
      (0 + chunkSize maxBytes size dur - ov) (n + 1) = some [] := by
    have hge : ¬ (0 + chunkSize maxBytes size dur - ov < (dur : Int)) := by omega
    simp only [chunkLoopFuel, if_neg hge]
  have h2 : chunkLoopFuel (dur : Int) (chunkSize maxBytes size dur) ov 0 (n + 2) =
      some [clipSeg (dur : Int) 0 (0 + chunkSize maxBytes size dur)] := by
    show chunkLoopFuel (dur : Int) (chunkSize maxBytes size dur) ov 0 ((n + 1) + 1) = _
    conv_lhs => rw [chunkLoopFuel]
    rw [if_pos h0d, h1]
  have hclip : clipSeg (dur : Int) 0 (0 + chunkSize maxBytes size dur)
      = (0, (dur : Int)) := by
    rw [clipSeg_eq (dur : Int) 0 (chunkSize maxBytes size dur) le_rfl h0d (by omega)]
    rw [min_eq_right (by omega)]
  have hg : get_chunk_size_ms maxBytes size dur = some (chunkSize maxBytes size dur) := by
    unfold get_chunk_size_ms
    rw [if_neg (by omega), if_neg (by omega)]
  unfold chunk_audio
  rw [hg]
  show (match chunkLoopFuel (dur : Int) (chunkSize maxBytes size dur) ov 0 (n + 2) with
        | none => ChunkResult.outOfFuel
        | some segs => ChunkResult.ok segs) = ChunkResult.ok [(0, (dur : Int))]
  rw [h2, hclip]

/-- Witness for C4's amended statement: a 100 ms buffer of 10 bytes, a
10-byte budget and zero overlap produce the single whole-buffer segment. -/
theorem C4_single_segment_witness :
    (0 : Nat) < 100 ∧ ((10 : Nat) : Int) ≤ 10 ∧ ((100 : Nat) : Int) + 0 ≤ chunkSize 10 10 100
    ∧ chunk_audio 10 0 10 100 2 = ChunkResult.ok [(0, 100)] :=
  ⟨by decide, by decide, by decide,
   C4_single_segment 10 0 10 100 2 (by decide) (by decide) (by decide) (by decide)
     (by decide) (by decide)⟩

/-- C5 counterexample: under a valid plan (overlap 30 ms, derived segment
duration 60 ms) the emitted segments of a 100 ms buffer are
`[(0,60), (30,90), (60,100), (90,100)]`: the last segment starts 10 ms, not
30 ms, before its predecessor's (clipped) end, so the claim's overlap clause
fails even though coverage and the exact final end hold. -/
theorem C5_counterexample :
    (30 : Int) < chunkSize 6 10 100
    ∧ chunk_audio 6 30 10 100 10 = ChunkResult.ok [(0, 60), (30, 90), (60, 100), (90, 100)]
    ∧ ¬ adjAtEndMinus 30 [((0 : Int), (60 : Int)), (30, 90), (60, 100), (90, 100)] :=
  ⟨by decide, by decide, by decide⟩

/-- C5 (amended): under a valid plan (`0 ≤ overlap < derived segment
duration`), any terminating run of `chunk_audio` emits segments that start
at 0, advance by `chunk_size_ms - overlap_ms` (i.e. each non-first segment
begins `overlap` before its predecessor's nominal, unclipped end) with no
gaps, each end clipped to the buffer end, the whole buffer `[0, dur)`
covered, and the final segment ending exactly at the buffer end. -/
theorem C5_segment_invariants (maxBytes ov : Int) (size dur : Nat) (fuel : Nat)
    (l : List (Int × Int))
    (hov : 0 ≤ ov) (hstep : ov < chunkSize maxBytes size dur)
    (hres : chunk_audio maxBytes ov size dur fuel = ChunkResult.ok l) :
    l.head?.map Prod.fst = some 0
    ∧ adjOk (chunkSize maxBytes size dur - ov) l
    ∧ (∀ p ∈ l, p.2 = min (p.1 + chunkSize maxBytes size dur) (dur : Int))
    ∧ covers (dur : Int) l
    ∧ l.getLast?.map Prod.snd = some (dur : Int) := by
  unfold chunk_audio get_chunk_size_ms at hres
  by_cases hd : dur = 0
  · rw [if_pos hd] at hres; cases hres
  rw [if_neg hd] at hres
  by_cases hs : size = 0
  · rw [if_pos hs] at hres; cases hres
  rw [if_neg hs] at hres
  have hres' : (match chunkLoopFuel (dur : Int) (chunkSize maxBytes size dur) ov 0 fuel with
      | none => ChunkResult.outOfFuel
      | some segs => ChunkResult.ok segs) = ChunkResult.ok l := hres
  clear hres
  cases hloop : chunkLoopFuel (dur : Int) (chunkSize maxBytes size dur) ov 0 fuel with
  | none => rw [hloop] at hres'; cases hres'
  | some l' =>
    rw [hloop] at hres'
    obtain rfl : l' = l := by injection hres'
    have h0d : (0 : Int) < (dur : Int) := by
      have : 0 < dur := Nat.pos_of_ne_zero hd
      exact_mod_cast this
    obtain ⟨hHead, hAdj, hEnds, hLast, hCov⟩ :=
      chunkLoopFuel_sound (dur : Int) (chunkSize maxBytes size dur) ov hov hstep
        fuel 0 l' le_rfl hloop
    rw [if_pos h0d] at hHead
    exact ⟨hHead.1, hAdj, hEnds, fun t h0t htd => hCov t h0t htd, hLast hHead.2⟩

/-- Witness for C5's amended statement at the counterexample's valid plan. -/
theorem C5_segment_invariants_witness :
    (0 : Int) ≤ 30 ∧ (30 : Int) < chunkSize 6 10 100
    ∧ ([((0 : Int), (60 : Int)), (30, 90), (60, 100), (90, 100)].head?.map Prod.fst = some 0
      ∧ adjOk (chunkSize 6 10 100 - 30) [((0 : Int), (60 : Int)), (30, 90), (60, 100), (90, 100)]
      ∧ (∀ p ∈ [((0 : Int), (60 : Int)), (30, 90), (60, 100), (90, 100)],
          p.2 = min (p.1 + chunkSize 6 10 100) ((100 : Nat) : Int))
      ∧ covers ((100 : Nat) : Int) [((0 : Int), (60 : Int)), (30, 90), (60, 100), (90, 100)]
      ∧ [((0 : Int), (60 : Int)), (30, 90), (60, 100), (90, 100)].getLast?.map Prod.snd
          = some ((100 : Nat) : Int)) :=
  ⟨by decide, by decide,
   C5_segment_invariants 6 30 10 100 10 [(0, 60), (30, 90), (60, 100), (90, 100)]
     (by decide) (by decide) (by decide)⟩

/-- C2 (code bug in the source, proved of the intended control flow): the
pipeline records every failed or empty segment index and keeps going,
merging the successful fragments in ascending index order; when every
segment fails it returns the empty transcript with all indices marked
failed; in particular four segments with segment 2 failing merge fragments
0, 1, 3 in order with failed set `{2}`. -/
theorem C2_failure_isolation :
    (∀ rs : List (Option (List Char)),
      process_large_audio rs
        = (stitch (successTexts rs), ((rs.enum.filter (fun p => !isSuccess p.2)).map Prod.fst)))
    ∧ (∀ rs : List (Option (List Char)), (∀ r ∈ rs, isSuccess r = false) →
        process_large_audio rs = ([], List.range rs.length))
    ∧ (∀ a b d : List Char, a ≠ [] → b ≠ [] → d ≠ [] →
        process_large_audio [some a, some b, none, some d]
          = (merge_overlapping_text (merge_overlapping_text a b 10) d 10, [2])) := by
  refine ⟨?_, ?_, ?_⟩
  · intro rs
    show (stitch (processChunks 0 rs).1, (processChunks 0 rs).2) = _
    rw [processChunks_eq rs 0]
    rfl
  · intro rs hall
    have hsucc : successTexts rs = [] := by
      unfold successTexts
      rw [List.filterMap_eq_nil_iff]
      intro r hr
      have := hall r hr
      cases r with
      | none => rfl
      | some t =>
        have ht : t = [] := by simpa [isSuccess] using this
        simp [ht]
    have hfail : ((List.enumFrom 0 rs).filter (fun p => !isSuccess p.2)) = List.enumFrom 0 rs := by
      rw [List.filter_eq_self]
      rw [List.forall_mem_enumFrom]
      intro i hi
      have := hall rs[i] (List.getElem_mem hi)
      simp [this]
    show (stitch (processChunks 0 rs).1, (processChunks 0 rs).2) = _
    rw [processChunks_eq rs 0]
    show (stitch (successTexts rs), ((List.enumFrom 0 rs).filter (fun p => !isSuccess p.2)).map Prod.fst) = _
    rw [hsucc, hfail]
    show ([], (List.enumFrom 0 rs).map Prod.fst) = _
    rw [List.enumFrom_map_fst, List.range_eq_range']
  · intro a b d ha hb hd
    simp [process_large_audio, processChunks, stitch, ha, hb, hd]

/-- Witness for C2 at concrete inputs: all-fail and the four-segment
scenario with segment 2 failing. -/
theorem C2_failure_isolation_witness :
    process_large_audio [none, none] = ([], [0, 1])
    ∧ process_large_audio [some "ab".toList, some "cd".toList, none, some "ef".toList]
        = (merge_overlapping_text (merge_overlapping_text "ab".toList "cd".toList 10)
            "ef".toList 10, [2]) :=
  ⟨by
    have h := C2_failure_isolation.2.1 [none, none] (by decide)
    simpa using h,
   C2_failure_isolation.2.2 "ab".toList "cd".toList "ef".toList
     (by decide) (by decide) (by decide)⟩
